import Mathlib

/-!
Shallow embedding of the buckytools `locate` command (src/unnamed/part_000)
and the shared `JSONRingType` data model (src/buckytools.go), together with
the collaborators they call that live outside src/ (the `hashing` package,
`GetRings`, `IsHealthy`, and the buckyd metric store documented in
src/unnamed/part_001), which are modelled from the specification.

Strings are modelled as `List Char` so that splitting and hashing are
elementary recursive functions.  `log.Fatal` is modelled as an `Except.error`
carrying a `FatalError`: in Go it writes its diagnostic to the standard error
stream and terminates the process with a non-zero exit status, recorded here
by `fatalDiagnostic` and `fatalExitCode`.
-/

deriving instance DecidableEq for Except

namespace Buckytools

abbrev Str := List Char

/-- From src/buckytools.go: `JSONRingType` names the server a view came from
and holds its `"server:instance"` formatted node strings. -/
structure JSONRingType where
  Name : Str
  Nodes : List Str
deriving DecidableEq

/-- Modelled from the spec: a hash-ring `Node` is `{host, instance?}`
(spec §3); the Go `hashing.NewNode(server, instance)` constructor is not
under src/.  `Inst` stands for Go's `Instance` (`instance` is reserved). -/
structure Node where
  Server : Str
  Inst : Str
deriving DecidableEq

/-- Go `strings.Split(n, ":")` from src/unnamed/part_000 line 42, specialised
to the `":"` separator; it never returns an empty list. -/
def splitColon : Str → List Str
  | [] => [[]]
  | c :: rest =>
    match splitColon rest with
    | [] => [[]]
    | f :: fs => if c = ':' then [] :: f :: fs else (c :: f) :: fs

/-- The per-identifier step of `buildHashRing` (src/unnamed/part_000 lines
42-47): split on `":"`; fewer than two fields yields the empty default
instance, otherwise the second field is the instance. -/
def parseNode (s : Str) : Node :=
  match splitColon s with
  | [] => ⟨[], []⟩
  | [f0] => ⟨f0, []⟩
  | f0 :: f1 :: _ => ⟨f0, f1⟩

/-- Modelled from the spec (§4.1): the `hashing.HashRing` state is the
collection of added nodes; positions are derived when resolving a key. -/
structure HashRing where
  nodes : List Node
deriving DecidableEq

/-- `hashing.NewHashRing()`: the empty ring. -/
def NewHashRing : HashRing := ⟨[]⟩

/-- Modelled from the spec (§4.1): `AddNode` inserts the node, treating a
duplicate node as an idempotent no-op. -/
def AddNode (hr : HashRing) (n : Node) : HashRing :=
  if n ∈ hr.nodes then hr else ⟨hr.nodes ++ [n]⟩

/-- From src/unnamed/part_000 lines 38-51: build a ring from the first
(authoritative) ring view, adding one parsed node per listed identifier.
Go indexes `rings[0]`, which panics on an empty slice; that case is
unreachable behind the health gate and is modelled by the empty view. -/
def buildHashRing (rings : List JSONRingType) : HashRing :=
  ((rings.headD ⟨[], []⟩).Nodes).foldl (fun hr n => AddNode hr (parseNode n)) NewHashRing

/-- Modelled from the spec (§3): node identity for hashing is
`host[:instance]`. -/
def nodeId (n : Node) : Str :=
  if n.Inst = [] then n.Server else n.Server ++ ':' :: n.Inst

/-- Ring order (spec §4.1: the ring is an ordered structure of hash
positions): by hash position of the node identity first, tie-broken
lexicographically on the node itself so the order is total, transitive and
antisymmetric. -/
def nodeLE (h : Str → Nat) (n m : Node) : Prop :=
  h (nodeId n) < h (nodeId m) ∨
    (h (nodeId n) = h (nodeId m) ∧
      (n.Server < m.Server ∨ (n.Server = m.Server ∧ n.Inst ≤ m.Inst)))

instance (h : Str → Nat) : DecidableRel (nodeLE h) := fun n m => by
  unfold nodeLE; infer_instance

/-- Modelled from the spec (§4.1): `GetNode` hashes the key and returns the
node bound to the first ring position at or after that hash, wrapping to the
smallest position; `none` models `EmptyRingError` when no nodes were added. -/
def GetNode (h : Str → Nat) (hr : HashRing) (key : Str) : Option Node :=
  match (List.insertionSort (nodeLE h) hr.nodes).filter
      (fun n => decide (h key ≤ h (nodeId n))) with
  | n :: _ => some n
  | [] => (List.insertionSort (nodeLE h) hr.nodes).head?

/-- Modelled from the spec (§4.2): two ring views carry the same node set
when they list the same identifiers, order-independently. -/
def sameNodeSet (a b : List Str) : Bool :=
  a.all (fun n => decide (n ∈ b)) && b.all (fun n => decide (n ∈ a))

/-- Modelled from the spec (§4.2): `IsHealthy` (called by
`LocateSliceMetrics` in src/unnamed/part_000 but defined outside src/) is
true iff at least one view was retrieved and every retrieved view's node set
exactly equals every other retrieved view's node set. -/
def IsHealthy (views : List JSONRingType) : Bool :=
  match views with
  | [] => false
  | v :: rest => rest.all (fun w => sameNodeSet v.Nodes w.Nodes)

/-- Modelled from the spec (§4.2, §6): `GetRings` (outside src/) fetches
every configured node's ring view; under the single-host override only the
one authoritative host is queried, so only its view is returned. -/
def GetRings (singleHost : Bool) (authoritative : JSONRingType)
    (views : List JSONRingType) : List JSONRingType :=
  if singleHost then [authoritative] else views

/-- `log.Fatal` outcomes: the process terminates with a non-zero exit status
after writing a diagnostic to the standard error stream. -/
inductive FatalError where
  | noArguments
  | clusterInconsistent
  | jsonUnmarshal (msg : Str)
  | emptyRingPanic
deriving DecidableEq

/-- The diagnostic each fatal path writes to the error stream
(src/unnamed/part_000 lines 59, 80, 90). -/
def fatalDiagnostic : FatalError → Str
  | .noArguments => "At least one argument is required.".toList
  | .clusterInconsistent =>
      "Cluster is inconsistent. Use the servers command to investigate.".toList
  | .jsonUnmarshal msg => "Error unmarshalling JSON data: ".toList ++ msg
  | .emptyRingPanic => "nil pointer dereference".toList

/-- `log.Fatal` terminates the process with exit status 1. -/
def fatalExitCode (_ : FatalError) : Nat := 1

/-- Go map assignment `m[k] = v`: replace the entry for `k`, or append a new
entry when `k` is absent. -/
def mapInsert (m : List (Str × Str)) (k v : Str) : List (Str × Str) :=
  match m with
  | [] => [(k, v)]
  | (k', v') :: rest => if k' = k then (k, v) :: rest else (k', v') :: mapInsert rest k v

/-- Go map read `m[k]`. -/
def mapLookup (m : List (Str × Str)) (k : Str) : Option Str :=
  match m with
  | [] => none
  | (k', v') :: rest => if k' = k then some v' else mapLookup rest k

/-- The `for _, key := range metrics` loop of `LocateSliceMetrics`
(src/unnamed/part_000 lines 64-68): assign `result[key] = hr.GetNode(key).Server`
for each key in order.  A `nil` node from an empty ring would make the Go
`.Server` access panic, modelled by `emptyRingPanic`. -/
def locateLoop (h : Str → Nat) (hr : HashRing) (metrics : List Str)
    (acc : List (Str × Str)) : Except FatalError (List (Str × Str)) :=
  match metrics with
  | [] => Except.ok acc
  | key :: rest =>
    match GetNode h hr key with
    | some n => locateLoop h hr rest (mapInsert acc key n.Server)
    | none => Except.error FatalError.emptyRingPanic

/-- From src/unnamed/part_000 lines 56-71: verify cluster health, build the
ring from the retrieved views, then map each metric key to the `Server` of
the node `GetNode` returns, discarding the instance.  `rings` stands for the
result of the ambient `GetRings()` call and `h` for the consistent-hash
function of the `hashing` package (outside src/). -/
def LocateSliceMetrics (h : Str → Nat) (rings : List JSONRingType)
    (metrics : List Str) : Except FatalError (List (Str × Str)) :=
  if IsHealthy rings then locateLoop h (buildHashRing rings) metrics []
  else Except.error FatalError.clusterInconsistent

/-- From src/unnamed/part_000 lines 73-84.  `u` stands for `json.Unmarshal`
into a string slice (encoding/json is an external collaborator, spec §1),
`blob` for the bytes `ioutil.ReadAll` produced, and `readErr` for the error
it returned, which the code overwrites without ever checking it. -/
def LocateJSONMetrics (h : Str → Nat) (u : Str → Except Str (List Str))
    (rings : List JSONRingType) (blob : Str) (readErr : Option Str) :
    Except FatalError (List (Str × Str)) :=
  match u blob with
  | Except.error e => Except.error (FatalError.jsonUnmarshal e)
  | Except.ok metrics => LocateSliceMetrics h rings metrics

/-- Where `locateCommand` takes its metric list from. -/
inductive LocateSource where
  | fatalNoArgs
  | argv
  | stdin
deriving DecidableEq

/-- The argument dispatch of `locateCommand` (src/unnamed/part_000 lines
89-95): no arguments is fatal; otherwise STDIN is read exactly when the
first argument is `"-"`, else all positional arguments are metric keys. -/
def locateSource (args : List Str) : LocateSource :=
  if args.length = 0 then .fatalNoArgs
  else if args.headD [] ≠ "-".toList then .argv
  else .stdin

/-- From src/unnamed/part_000 lines 87-112: the `locate` subcommand body up
to output formatting; the mapping it would print is returned.  `single`,
`authoritative` and `views` model the inputs of the ambient `GetRings`,
`blob` and `readErr` the STDIN read, `u` the JSON decoder. -/
def locateCommand (h : Str → Nat) (u : Str → Except Str (List Str))
    (single : Bool) (authoritative : JSONRingType) (views : List JSONRingType)
    (args : List Str) (blob : Str) (readErr : Option Str) :
    Except FatalError (List (Str × Str)) :=
  match locateSource args with
  | .fatalNoArgs => Except.error FatalError.noArguments
  | .argv => LocateSliceMetrics h (GetRings single authoritative views) args
  | .stdin => LocateJSONMetrics h u (GetRings single authoritative views) blob readErr

/-- Modelled from the spec (§3, §4.4): a whisper archive is a fixed-stride
sequence of slots, each populated (`some`) or a gap (`none`). -/
abbrev SlotSeq := List (Option Int)

/-- Modelled from the spec (§4.4): the per-node backend store, metric key to
archive content; the buckyd server is outside src/ (src/unnamed/part_001
only documents its REST surface). -/
def Store := Str → Option SlotSeq

/-- A store holding no metrics. -/
def emptyStore : Store := fun _ => none

/-- Modelled from the spec (§4.4): `PUT /metrics/<key>` fully overwrites the
backend content, creating missing structure. -/
def PutMetricFile (s : Store) (k : Str) (content : SlotSeq) : Store :=
  fun k' => if k' = k then some content else s k'

/-- Modelled from the spec (§3): the backfill merge writes a value into a
slot only if that slot is currently a gap; it never overwrites a populated
slot. -/
def backfillMerge (onDisk incoming : SlotSeq) : SlotSeq :=
  List.zipWith (fun a b => match a with | some v => some v | none => b) onDisk incoming

/-- Backend failure for malformed backfill content. -/
inductive StoreError where
  | validation
deriving DecidableEq

/-- Modelled from the spec (§4.4; src/unnamed/part_001 lines 38-40):
`POST /metrics/<key>` backfills the on-disk archive, filling only gap slots;
an absent metric is created fresh, equivalent to `PutMetricFile`; content
whose archive shape mismatches the on-disk one is a `ValidationError`. -/
def BackfillMetricFile (s : Store) (k : Str) (content : SlotSeq) :
    Except StoreError Store :=
  match s k with
  | none => Except.ok (PutMetricFile s k content)
  | some onDisk =>
      if onDisk.length = content.length then
        Except.ok (PutMetricFile s k (backfillMerge onDisk content))
      else Except.error StoreError.validation

/-! ### Properties of the ring order -/

theorem nodeLE_total (h : Str → Nat) (n m : Node) : nodeLE h n m ∨ nodeLE h m n := by
  rcases Nat.lt_trichotomy (h (nodeId n)) (h (nodeId m)) with h1 | h1 | h1
  · exact Or.inl (Or.inl h1)
  · rcases lt_trichotomy n.Server m.Server with h2 | h2 | h2
    · exact Or.inl (Or.inr ⟨h1, Or.inl h2⟩)
    · rcases le_total n.Inst m.Inst with h3 | h3
      · exact Or.inl (Or.inr ⟨h1, Or.inr ⟨h2, h3⟩⟩)
      · exact Or.inr (Or.inr ⟨h1.symm, Or.inr ⟨h2.symm, h3⟩⟩)
    · exact Or.inr (Or.inr ⟨h1.symm, Or.inl h2⟩)
  · exact Or.inr (Or.inl h1)

theorem nodeLE_trans (h : Str → Nat) {n m p : Node} (h1 : nodeLE h n m)
    (h2 : nodeLE h m p) : nodeLE h n p := by
  rcases h1 with a1 | ⟨e1, b1⟩
  · rcases h2 with a2 | ⟨e2, _⟩
    · exact Or.inl (a1.trans a2)
    · exact Or.inl (by rw [← e2]; exact a1)
  · rcases h2 with a2 | ⟨e2, b2⟩
    · exact Or.inl (by rw [e1]; exact a2)
    · refine Or.inr ⟨e1.trans e2, ?_⟩
      rcases b1 with c1 | ⟨s1, d1⟩
      · rcases b2 with c2 | ⟨s2, _⟩
        · exact Or.inl (c1.trans c2)
        · exact Or.inl (by rw [← s2]; exact c1)
      · rcases b2 with c2 | ⟨s2, d2⟩
        · exact Or.inl (by rw [s1]; exact c2)
        · exact Or.inr ⟨s1.trans s2, d1.trans d2⟩

theorem nodeLE_antisymm (h : Str → Nat) {n m : Node} (h1 : nodeLE h n m)
    (h2 : nodeLE h m n) : n = m := by
  rcases h1 with a1 | ⟨e1, b1⟩
  · rcases h2 with a2 | ⟨e2, _⟩
    · exact absurd a2 (Nat.lt_asymm a1)
    · exact absurd a1 (by rw [e2]; exact Nat.lt_irrefl _)
  · rcases h2 with a2 | ⟨_, b2⟩
    · exact absurd a2 (by rw [e1]; exact Nat.lt_irrefl _)
    · rcases b1 with c1 | ⟨s1, d1⟩
      · rcases b2 with c2 | ⟨s2, _⟩
        · exact absurd c2 (lt_asymm c1)
        · exact absurd c1 (by rw [s2]; exact lt_irrefl _)
      · rcases b2 with c2 | ⟨_, d2⟩
        · exact absurd c2 (by rw [s1]; exact lt_irrefl _)
        · have hI : n.Inst = m.Inst := le_antisymm d1 d2
          cases n; cases m
          cases s1; cases hI; rfl

instance (h : Str → Nat) : IsTotal Node (nodeLE h) := ⟨nodeLE_total h⟩

instance (h : Str → Nat) : IsTrans Node (nodeLE h) :=
  ⟨fun _ _ _ => nodeLE_trans h⟩

instance (h : Str → Nat) : IsAntisymm Node (nodeLE h) :=
  ⟨fun _ _ => nodeLE_antisymm h⟩

/-! ### Splitting node identifiers -/

theorem splitColon_ne_nil (s : Str) : splitColon s ≠ [] := by
  cases s with
  | nil => simp [splitColon]
  | cons c cs =>
    unfold splitColon
    cases splitColon cs with
    | nil => simp
    | cons f fs => by_cases hc : c = ':' <;> simp [hc]

theorem splitColon_no_colon {s : Str} (hc : ':' ∉ s) : splitColon s = [s] := by
  induction s with
  | nil => rfl
  | cons c cs ih =>
    have hcc : ¬(c = ':') := fun e => hc (e ▸ List.mem_cons_self c cs)
    have hcs : ':' ∉ cs := fun hm => hc (List.mem_cons_of_mem _ hm)
    simp only [splitColon, ih hcs]
    simp [hcc]

theorem splitColon_append {host rest : Str} (hc : ':' ∉ host) :
    splitColon (host ++ ':' :: rest) = host :: splitColon rest := by
  induction host with
  | nil =>
    simp only [List.nil_append, splitColon]
    cases hs : splitColon rest with
    | nil => exact absurd hs (splitColon_ne_nil rest)
    | cons f fs => simp
  | cons c cs ih =>
    have hcc : ¬(c = ':') := fun e => hc (e ▸ List.mem_cons_self c cs)
    have hcs : ':' ∉ cs := fun hm => hc (List.mem_cons_of_mem _ hm)
    simp only [List.cons_append, splitColon, List.append_eq]
    rw [ih hcs]
    simp [hcc]

theorem parseNode_no_colon {s : Str} (hc : ':' ∉ s) : parseNode s = ⟨s, []⟩ := by
  unfold parseNode
  rw [splitColon_no_colon hc]

theorem parseNode_colon {host inst : Str} (h1 : ':' ∉ host) (h2 : ':' ∉ inst) :
    parseNode (host ++ ':' :: inst) = ⟨host, inst⟩ := by
  unfold parseNode
  rw [splitColon_append h1, splitColon_no_colon h2]

/-! ### Ring construction -/

theorem mem_addNode (hr : HashRing) (n x : Node) :
    x ∈ (AddNode hr n).nodes ↔ x ∈ hr.nodes ∨ x = n := by
  unfold AddNode
  by_cases hn : n ∈ hr.nodes
  · rw [if_pos hn]
    constructor
    · exact Or.inl
    · rintro (hx | rfl)
      · exact hx
      · exact hn
  · rw [if_neg hn]
    simp [List.mem_append]

theorem nodup_addNode (hr : HashRing) (n : Node) (hnodup : hr.nodes.Nodup) :
    (AddNode hr n).nodes.Nodup := by
  unfold AddNode
  by_cases hn : n ∈ hr.nodes
  · rw [if_pos hn]; exact hnodup
  · rw [if_neg hn]
    exact List.nodup_append.mpr ⟨hnodup, List.nodup_singleton n,
      fun a ha hb => hn (by rwa [List.mem_singleton.mp hb] at ha)⟩

theorem mem_foldl_addNode (l : List Str) (acc : HashRing) (x : Node) :
    x ∈ (l.foldl (fun hr n => AddNode hr (parseNode n)) acc).nodes ↔
      x ∈ acc.nodes ∨ ∃ s ∈ l, parseNode s = x := by
  induction l generalizing acc with
  | nil => simp
  | cons s ss ih =>
    rw [List.foldl_cons, ih, mem_addNode]
    constructor
    · rintro ((hx | rfl) | ⟨t, ht, rfl⟩)
      · exact Or.inl hx
      · exact Or.inr ⟨s, List.mem_cons_self s ss, rfl⟩
      · exact Or.inr ⟨t, List.mem_cons_of_mem _ ht, rfl⟩
    · rintro (hx | ⟨t, ht, rfl⟩)
      · exact Or.inl (Or.inl hx)
      · rcases List.mem_cons.mp ht with rfl | ht'
        · exact Or.inl (Or.inr rfl)
        · exact Or.inr ⟨t, ht', rfl⟩

theorem nodup_foldl_addNode (l : List Str) (acc : HashRing)
    (hnodup : acc.nodes.Nodup) :
    (l.foldl (fun hr n => AddNode hr (parseNode n)) acc).nodes.Nodup := by
  induction l generalizing acc with
  | nil => exact hnodup
  | cons s ss ih => exact ih _ (nodup_addNode _ _ hnodup)

theorem mem_buildHashRing (rings : List JSONRingType) (x : Node) :
    x ∈ (buildHashRing rings).nodes ↔
      ∃ s ∈ (rings.headD ⟨[], []⟩).Nodes, parseNode s = x := by
  unfold buildHashRing
  rw [mem_foldl_addNode]
  simp [NewHashRing]

theorem nodup_buildHashRing (rings : List JSONRingType) :
    (buildHashRing rings).nodes.Nodup :=
  nodup_foldl_addNode _ _ (by simp [NewHashRing])

/-! ### Health checking -/

theorem sameNodeSet_iff {a b : List Str} :
    sameNodeSet a b = true ↔ ∀ n, n ∈ a ↔ n ∈ b := by
  unfold sameNodeSet
  rw [Bool.and_eq_true, List.all_eq_true, List.all_eq_true]
  simp only [decide_eq_true_eq]
  constructor
  · rintro ⟨h1, h2⟩ n
    exact ⟨h1 n, h2 n⟩
  · intro hiff
    exact ⟨fun n hn => (hiff n).mp hn, fun n hn => (hiff n).mpr hn⟩

theorem isHealthy_iff (views : List JSONRingType) :
    IsHealthy views = true ↔
      views ≠ [] ∧ ∀ v ∈ views, ∀ w ∈ views, ∀ n, (n ∈ v.Nodes ↔ n ∈ w.Nodes) := by
  cases views with
  | nil => simp [IsHealthy]
  | cons v rest =>
    unfold IsHealthy
    rw [List.all_eq_true]
    constructor
    · intro hall
      refine ⟨List.cons_ne_nil v rest, ?_⟩
      have hv : ∀ w ∈ v :: rest, ∀ n, n ∈ v.Nodes ↔ n ∈ w.Nodes := by
        intro w hw n
        rcases List.mem_cons.mp hw with rfl | hw'
        · exact Iff.rfl
        · exact (sameNodeSet_iff.mp (hall w hw')) n
      intro x hx y hy n
      exact (hv x hx n).symm.trans (hv y hy n)
    · rintro ⟨-, hp⟩ w hw
      exact sameNodeSet_iff.mpr
        (hp v (List.mem_cons_self v rest) w (List.mem_cons_of_mem _ hw))

theorem isHealthy_eq_false_of_disagree {views : List JSONRingType}
    {v1 v2 : JSONRingType} (h1 : v1 ∈ views) (h2 : v2 ∈ views)
    (hbad : sameNodeSet v1.Nodes v2.Nodes = false) : IsHealthy views = false := by
  cases hIH : IsHealthy views
  · rfl
  · exfalso
    obtain ⟨-, hp⟩ := (isHealthy_iff views).mp hIH
    have : sameNodeSet v1.Nodes v2.Nodes = true :=
      sameNodeSet_iff.mpr (hp v1 h1 v2 h2)
    rw [hbad] at this
    exact Bool.false_ne_true this

theorem locateSlice_error_of_disagree (h : Str → Nat) (metrics : List Str)
    {views : List JSONRingType} {v1 v2 : JSONRingType} (hv1 : v1 ∈ views)
    (hv2 : v2 ∈ views) (hbad : sameNodeSet v1.Nodes v2.Nodes = false) :
    LocateSliceMetrics h views metrics = Except.error FatalError.clusterInconsistent := by
  have hf := isHealthy_eq_false_of_disagree hv1 hv2 hbad
  unfold LocateSliceMetrics
  rw [hf]
  simp

/-! ### Go map semantics -/

theorem mapLookup_insert_self (m : List (Str × Str)) (k v : Str) :
    mapLookup (mapInsert m k v) k = some v := by
  induction m with
  | nil => simp [mapInsert, mapLookup]
  | cons p rest ih =>
    obtain ⟨k', v'⟩ := p
    unfold mapInsert
    by_cases hk : k' = k
    · rw [if_pos hk]
      simp [mapLookup]
    · rw [if_neg hk]
      unfold mapLookup
      rw [if_neg hk]
      exact ih

theorem mapLookup_insert_ne (m : List (Str × Str)) (k v k' : Str) (hne : k' ≠ k) :
    mapLookup (mapInsert m k v) k' = mapLookup m k' := by
  have hkk' : ¬(k = k') := fun e => hne e.symm
  induction m with
  | nil => simp [mapInsert, mapLookup, hkk']
  | cons p rest ih =>
    obtain ⟨k0, v0⟩ := p
    unfold mapInsert
    by_cases hk : k0 = k
    · rw [if_pos hk]
      unfold mapLookup
      rw [if_neg (fun e : k = k' => hne e.symm), if_neg (fun e : k0 = k' => hne (hk ▸ e).symm)]
    · rw [if_neg hk]
      unfold mapLookup
      by_cases h0 : k0 = k'
      · rw [if_pos h0, if_pos h0]
      · rw [if_neg h0, if_neg h0]
        exact ih

theorem keys_mapInsert (m : List (Str × Str)) (k v : Str) :
    (mapInsert m k v).map Prod.fst =
      if k ∈ m.map Prod.fst then m.map Prod.fst else m.map Prod.fst ++ [k] := by
  induction m with
  | nil => simp [mapInsert]
  | cons p rest ih =>
    obtain ⟨k0, v0⟩ := p
    unfold mapInsert
    by_cases hk : k0 = k
    · subst hk
      rw [if_pos rfl]
      simp
    · rw [if_neg hk]
      simp only [List.map_cons, ih]
      have hkk0 : ¬(k = k0) := fun e => hk e.symm
      by_cases hin : k ∈ rest.map Prod.fst
      · rw [if_pos hin, if_pos (by simp [hin])]
      · rw [if_neg hin, if_neg (by simp [hin, hkk0])]
        simp

theorem nodup_keys_mapInsert (m : List (Str × Str)) (k v : Str)
    (hm : (m.map Prod.fst).Nodup) : ((mapInsert m k v).map Prod.fst).Nodup := by
  rw [keys_mapInsert]
  by_cases hin : k ∈ m.map Prod.fst
  · rwa [if_pos hin]
  · rw [if_neg hin]
    exact List.nodup_append.mpr ⟨hm, List.nodup_singleton k,
      fun a ha hb => hin (by rwa [List.mem_singleton.mp hb] at ha)⟩

theorem mem_keys_mapInsert (m : List (Str × Str)) (k v x : Str) :
    x ∈ (mapInsert m k v).map Prod.fst ↔ x = k ∨ x ∈ m.map Prod.fst := by
  rw [keys_mapInsert]
  by_cases hin : k ∈ m.map Prod.fst
  · rw [if_pos hin]
    constructor
    · exact Or.inr
    · rintro (rfl | hx)
      · exact hin
      · exact hx
  · rw [if_neg hin]
    simp [List.mem_append, or_comm]

/-! ### The resolution loop -/

theorem getNode_isSome (h : Str → Nat) (hr : HashRing) (key : Str)
    (hne : hr.nodes ≠ []) : ∃ n, GetNode h hr key = some n := by
  have hrne : List.insertionSort (nodeLE h) hr.nodes ≠ [] := by
    intro hnil
    have hperm := List.perm_insertionSort (nodeLE h) hr.nodes
    rw [hnil] at hperm
    exact hne (hperm.symm.eq_nil)
  unfold GetNode
  cases hf : (List.insertionSort (nodeLE h) hr.nodes).filter
      (fun n => decide (h key ≤ h (nodeId n))) with
  | cons a l => exact ⟨a, rfl⟩
  | nil =>
    show ∃ n, (List.insertionSort (nodeLE h) hr.nodes).head? = some n
    cases hs : List.insertionSort (nodeLE h) hr.nodes with
    | nil => exact absurd hs hrne
    | cons r rs => exact ⟨r, rfl⟩

theorem locateLoop_ok_of_ne_nil (h : Str → Nat) (hr : HashRing)
    (hne : hr.nodes ≠ []) :
    ∀ (metrics : List Str) (acc : List (Str × Str)),
      ∃ m, locateLoop h hr metrics acc = Except.ok m := by
  intro metrics
  induction metrics with
  | nil => exact fun acc => ⟨acc, rfl⟩
  | cons key rest ih =>
    intro acc
    obtain ⟨n, hn⟩ := getNode_isSome h hr key hne
    obtain ⟨m, hm⟩ := ih (mapInsert acc key n.Server)
    refine ⟨m, ?_⟩
    unfold locateLoop
    rw [hn]
    exact hm

theorem locateLoop_lookup (h : Str → Nat) (hr : HashRing) :
    ∀ (metrics : List Str) (acc m : List (Str × Str)),
      locateLoop h hr metrics acc = Except.ok m →
      ∀ k, mapLookup m k =
        if k ∈ metrics then (GetNode h hr k).map Node.Server else mapLookup acc k := by
  intro metrics
  induction metrics with
  | nil =>
    intro acc m hm k
    unfold locateLoop at hm
    injection hm with hm
    subst hm
    simp
  | cons key rest ih =>
    intro acc m hm k
    unfold locateLoop at hm
    cases hg : GetNode h hr key with
    | none => rw [hg] at hm; exact absurd hm (by simp)
    | some n =>
      rw [hg] at hm
      rw [ih (mapInsert acc key n.Server) m hm k]
      by_cases hk' : k ∈ rest
      · rw [if_pos hk', if_pos (List.mem_cons_of_mem _ hk')]
      · rw [if_neg hk']
        by_cases hkk : k = key
        · subst hkk
          rw [if_pos (List.mem_cons_self k rest), mapLookup_insert_self, hg]
          rfl
        · rw [if_neg (fun hm' => (List.mem_cons.mp hm').elim hkk hk')]
          exact mapLookup_insert_ne acc key n.Server k hkk

theorem locateLoop_keys (h : Str → Nat) (hr : HashRing) :
    ∀ (metrics : List Str) (acc m : List (Str × Str)),
      locateLoop h hr metrics acc = Except.ok m →
      ((acc.map Prod.fst).Nodup → (m.map Prod.fst).Nodup) ∧
        (∀ k, k ∈ m.map Prod.fst ↔ k ∈ metrics ∨ k ∈ acc.map Prod.fst) := by
  intro metrics
  induction metrics with
  | nil =>
    intro acc m hm
    unfold locateLoop at hm
    injection hm with hm
    subst hm
    exact ⟨id, by simp⟩
  | cons key rest ih =>
    intro acc m hm
    unfold locateLoop at hm
    cases hg : GetNode h hr key with
    | none => rw [hg] at hm; exact absurd hm (by simp)
    | some n =>
      rw [hg] at hm
      obtain ⟨hnd, hmem⟩ := ih (mapInsert acc key n.Server) m hm
      constructor
      · exact fun ha => hnd (nodup_keys_mapInsert acc key n.Server ha)
      · intro k
        rw [hmem k, mem_keys_mapInsert, List.mem_cons]
        tauto

theorem locateSlice_ok_elim {h : Str → Nat} {rings : List JSONRingType}
    {metrics : List Str} {m : List (Str × Str)}
    (hok : LocateSliceMetrics h rings metrics = Except.ok m) :
    locateLoop h (buildHashRing rings) metrics [] = Except.ok m := by
  unfold LocateSliceMetrics at hok
  by_cases hh : IsHealthy rings = true
  · rwa [if_pos hh] at hok
  · rw [if_neg hh] at hok
    exact absurd hok (by simp)

/-! ### Order independence of resolution -/

theorem insertionSort_eq_of_perm (h : Str → Nat) {l1 l2 : List Node}
    (hp : l1.Perm l2) :
    List.insertionSort (nodeLE h) l1 = List.insertionSort (nodeLE h) l2 :=
  List.eq_of_perm_of_sorted
    ((List.perm_insertionSort _ l1).trans (hp.trans (List.perm_insertionSort _ l2).symm))
    (List.sorted_insertionSort _ l1) (List.sorted_insertionSort _ l2)

theorem getNode_eq_of_perm (h : Str → Nat) {hr1 hr2 : HashRing}
    (hp : hr1.nodes.Perm hr2.nodes) (key : Str) :
    GetNode h hr1 key = GetNode h hr2 key := by
  unfold GetNode
  rw [insertionSort_eq_of_perm h hp]

theorem buildHashRing_perm {r1 r2 : List JSONRingType}
    (hp : ((r1.headD ⟨[], []⟩).Nodes).Perm ((r2.headD ⟨[], []⟩).Nodes)) :
    ((buildHashRing r1).nodes).Perm ((buildHashRing r2).nodes) := by
  apply (List.perm_ext_iff_of_nodup (nodup_buildHashRing r1) (nodup_buildHashRing r2)).mpr
  intro x
  rw [mem_buildHashRing, mem_buildHashRing]
  constructor
  · rintro ⟨s, hs, rfl⟩
    exact ⟨s, hp.mem_iff.mp hs, rfl⟩
  · rintro ⟨s, hs, rfl⟩
    exact ⟨s, hp.mem_iff.mpr hs, rfl⟩

/-! ### Backfill merge -/

theorem backfillMerge_populated : ∀ (p1 p2 : SlotSeq), p1.length = p2.length →
    ∀ i v, p1.getD i none = some v → (backfillMerge p1 p2).getD i none = some v := by
  intro p1
  induction p1 with
  | nil =>
    intro p2 _ i v hv
    simp [List.getD] at hv
  | cons a as ih =>
    intro p2 hlen i v hv
    cases p2 with
    | nil => simp at hlen
    | cons b bs =>
      have hlen' : as.length = bs.length := by simpa using hlen
      cases i with
      | zero =>
        rw [List.getD_cons_zero] at hv
        unfold backfillMerge
        rw [List.zipWith_cons_cons, List.getD_cons_zero, hv]
      | succ n =>
        rw [List.getD_cons_succ] at hv
        unfold backfillMerge
        rw [List.zipWith_cons_cons, List.getD_cons_succ]
        exact ih bs hlen' n v hv

theorem backfillMerge_fills : ∀ (p1 p2 : SlotSeq), p1.length = p2.length →
    ∀ i, p1.getD i none = none → (backfillMerge p1 p2).getD i none = p2.getD i none := by
  intro p1
  induction p1 with
  | nil =>
    intro p2 hlen i _
    cases p2 with
    | nil => rfl
    | cons b bs => simp at hlen
  | cons a as ih =>
    intro p2 hlen i hv
    cases p2 with
    | nil => simp at hlen
    | cons b bs =>
      have hlen' : as.length = bs.length := by simpa using hlen
      cases i with
      | zero =>
        rw [List.getD_cons_zero] at hv
        unfold backfillMerge
        rw [List.zipWith_cons_cons, List.getD_cons_zero, List.getD_cons_zero, hv]
      | succ n =>
        rw [List.getD_cons_succ] at hv
        unfold backfillMerge
        rw [List.zipWith_cons_cons, List.getD_cons_succ, List.getD_cons_succ]
        exact ih bs hlen' n hv

/-! ### Claims -/

/-- C1: when the retrieved ring views are not all consistent and the
single-host override is not active, `LocateSliceMetrics` fails with the
cluster-inconsistent fatal error before resolving any key, and no key of the
batch is mapped to a node. -/
theorem claim_locate_health_gated (h : Str → Nat) (authoritative : JSONRingType)
    (views : List JSONRingType) (metrics : List Str) (v1 v2 : JSONRingType)
    (hv1 : v1 ∈ views) (hv2 : v2 ∈ views)
    (hbad : sameNodeSet v1.Nodes v2.Nodes = false) :
    LocateSliceMetrics h (GetRings false authoritative views) metrics =
        Except.error FatalError.clusterInconsistent ∧
      ∀ m, LocateSliceMetrics h (GetRings false authoritative views) metrics ≠
        Except.ok m := by
  have hg : GetRings false authoritative views = views := rfl
  have hmain := locateSlice_error_of_disagree h metrics hv1 hv2 hbad
  rw [hg]
  exact ⟨hmain, fun m hm => by rw [hmain] at hm; exact Except.noConfusion hm⟩

/-- Witness for C1 at a two-view cluster that disagrees on membership. -/
theorem claim_locate_health_gated_witness :
    LocateSliceMetrics (fun s => s.length)
        (GetRings false ⟨"a".toList, ["a".toList]⟩
          [⟨"a".toList, ["a".toList]⟩, ⟨"b".toList, ["b".toList]⟩])
        ["x".toList] = Except.error FatalError.clusterInconsistent :=
  (claim_locate_health_gated (fun s => s.length) ⟨"a".toList, ["a".toList]⟩
      [⟨"a".toList, ["a".toList]⟩, ⟨"b".toList, ["b".toList]⟩] ["x".toList]
      ⟨"a".toList, ["a".toList]⟩ ⟨"b".toList, ["b".toList]⟩
      (by decide) (by decide) (by decide)).1

/-- C2: backfill never overwrites a populated slot and fills every gap slot
from the supplied content; backfilling an absent metric creates it fresh,
equivalent to a put of exactly the supplied content. -/
theorem claim_backfill_gap_only (s s0 : Store) (k : Str) (p1 p2 : SlotSeq)
    (hlen : p1.length = p2.length) (habsent : s0 k = none) :
    BackfillMetricFile (PutMetricFile s k p1) k p2 =
        Except.ok (PutMetricFile s k (backfillMerge p1 p2)) ∧
      (∀ i v, p1.getD i none = some v → (backfillMerge p1 p2).getD i none = some v) ∧
      (∀ i, p1.getD i none = none →
        (backfillMerge p1 p2).getD i none = p2.getD i none) ∧
      BackfillMetricFile s0 k p2 = Except.ok (PutMetricFile s0 k p2) := by
  refine ⟨?_, backfillMerge_populated p1 p2 hlen, backfillMerge_fills p1 p2 hlen, ?_⟩
  · unfold BackfillMetricFile
    have hput : PutMetricFile s k p1 k = some p1 := by
      unfold PutMetricFile
      rw [if_pos rfl]
    have hstore : PutMetricFile (PutMetricFile s k p1) k (backfillMerge p1 p2) =
        PutMetricFile s k (backfillMerge p1 p2) := by
      funext k'
      unfold PutMetricFile
      by_cases hk : k' = k
      · rw [if_pos hk, if_pos hk]
      · rw [if_neg hk, if_neg hk, if_neg hk]
    rw [hput]
    simp [hlen, hstore]
  · unfold BackfillMetricFile
    rw [habsent]

/-- Witness for C2: a populated slot survives the backfill and a gap slot is
filled from the supplied content. -/
theorem claim_backfill_gap_only_witness :
    (backfillMerge [some 1, none] [some 5, some 7]).getD 0 none = some 1 ∧
      (backfillMerge [some 1, none] [some 5, some 7]).getD 1 none =
        ([some 5, some 7] : SlotSeq).getD 1 none :=
  ⟨(claim_backfill_gap_only emptyStore emptyStore "m".toList [some 1, none]
      [some 5, some 7] (by decide) rfl).2.1 0 1 (by decide),
   (claim_backfill_gap_only emptyStore emptyStore "m".toList [some 1, none]
      [some 5, some 7] (by decide) rfl).2.2.1 1 (by decide)⟩

/-- C3: `IsHealthy` is true iff at least one view was retrieved and every
retrieved view's node set, compared order-independently, equals every other
retrieved view's node set; any disagreement between two retrieved views
yields false. -/
theorem claim_isHealthy_agreement (views : List JSONRingType) :
    IsHealthy views = true ↔
      views ≠ [] ∧ ∀ v ∈ views, ∀ w ∈ views, ∀ n, (n ∈ v.Nodes ↔ n ∈ w.Nodes) :=
  isHealthy_iff views

/-- C10: `LocateJSONMetrics` never checks the read error: its result is
independent of that error; the process dies on the unmarshal diagnostic iff
decoding the read bytes fails, and bytes that decode proceed exactly as a
successful read would. -/
theorem claim_read_error_discarded (h : Str → Nat)
    (u : Str → Except Str (List Str)) (rings : List JSONRingType) (blob : Str)
    (e1 e2 : Option Str) :
    LocateJSONMetrics h u rings blob e1 = LocateJSONMetrics h u rings blob e2 ∧
      (∀ msg, u blob = Except.error msg →
        LocateJSONMetrics h u rings blob e1 =
          Except.error (FatalError.jsonUnmarshal msg)) ∧
      (∀ ms, u blob = Except.ok ms →
        LocateJSONMetrics h u rings blob e1 = LocateSliceMetrics h rings ms) := by
  refine ⟨rfl, ?_, ?_⟩
  · intro msg hmsg
    unfold LocateJSONMetrics
    rw [hmsg]
  · intro ms hms
    unfold LocateJSONMetrics
    rw [hms]

/-- Witness for C10: a failed read whose bytes do not decode dies on the
unmarshal diagnostic, the read error value notwithstanding. -/
theorem claim_read_error_discarded_witness :
    LocateJSONMetrics (fun s => s.length) (fun _ => Except.error "bad".toList)
        [] [] (some "io".toList) =
      Except.error (FatalError.jsonUnmarshal "bad".toList) :=
  (claim_read_error_discarded (fun s => s.length)
      (fun _ => Except.error "bad".toList) [] [] (some "io".toList) none).2.1
    "bad".toList rfl

/-- C7 counterexample: with arguments `["-", "x"]` the placeholder is not the
sole argument, yet the command still takes its metric list from STDIN. -/
theorem claim_stdin_sole_argument_counterexample :
    locateSource ["-".toList, "x".toList] = LocateSource.stdin ∧
      ["-".toList, "x".toList] ≠ ["-".toList] ∧
      locateCommand (fun s => s.length) (fun _ => Except.ok []) false
          ⟨"a".toList, ["a".toList]⟩ [⟨"a".toList, ["a".toList]⟩]
          ["-".toList, "x".toList] [] none =
        LocateJSONMetrics (fun s => s.length) (fun _ => Except.ok [])
          (GetRings false ⟨"a".toList, ["a".toList]⟩ [⟨"a".toList, ["a".toList]⟩])
          [] none :=
  ⟨by decide, by decide, rfl⟩

/-- C7 amended: metric keys are positional arguments and STDIN is used
exactly when the first argument is `"-"`; otherwise every positional
argument is a metric key, and an empty argument list is the fatal case. -/
theorem claim_stdin_first_argument (args : List Str) :
    (locateSource args = LocateSource.stdin ↔ args.headD [] = "-".toList) ∧
      (locateSource args = LocateSource.argv →
        ∀ (h : Str → Nat) u single authoritative views blob readErr,
          locateCommand h u single authoritative views args blob readErr =
            LocateSliceMetrics h (GetRings single authoritative views) args) ∧
      (args = [] → locateSource args = LocateSource.fatalNoArgs) := by
  refine ⟨?_, ?_, ?_⟩
  · cases args with
    | nil =>
      constructor
      · intro hsrc
        exact absurd hsrc (by decide)
      · intro hd
        exact absurd hd (by decide)
    | cons a as =>
      unfold locateSource
      simp only [List.headD_cons, List.length_cons]
      rw [if_neg (Nat.succ_ne_zero _)]
      by_cases ha : a = "-".toList
      · rw [if_neg (not_not_intro ha)]
        exact ⟨fun _ => ha, fun _ => rfl⟩
      · rw [if_pos ha]
        constructor
        · intro hsrc
          exact absurd hsrc (by decide)
        · intro hd
          exact absurd hd ha
  · intro hsrc h u single authoritative views blob readErr
    unfold locateCommand
    rw [hsrc]
  · rintro rfl
    rfl

/-- Witness for C7 amended: a plain key argument resolves via the argv path. -/
theorem claim_stdin_first_argument_witness :
    locateCommand (fun s => s.length) (fun _ => Except.ok []) false
        ⟨"a".toList, ["a".toList]⟩ [⟨"a".toList, ["a".toList]⟩] ["x".toList]
        [] none =
      LocateSliceMetrics (fun s => s.length)
        (GetRings false ⟨"a".toList, ["a".toList]⟩ [⟨"a".toList, ["a".toList]⟩])
        ["x".toList] :=
  (claim_stdin_first_argument ["x".toList]).2.1 (by decide) (fun s => s.length)
    (fun _ => Except.ok []) false ⟨"a".toList, ["a".toList]⟩
    [⟨"a".toList, ["a".toList]⟩] [] none

/-- C5: each unrecoverable precondition of the locate command - no metric
arguments, cluster inconsistency without the single-host override, or
malformed input JSON - terminates the process with a non-zero exit status
and a diagnostic on the error stream instead of returning a result. -/
theorem claim_locate_fatal_preconditions (h : Str → Nat)
    (u : Str → Except Str (List Str)) (authoritative : JSONRingType)
    (views : List JSONRingType) (args : List Str) (blob : Str)
    (readErr : Option Str) :
    (args = [] → locateCommand h u false authoritative views args blob readErr =
        Except.error FatalError.noArguments) ∧
      (∀ a as v1 v2, args = a :: as → a ≠ "-".toList → v1 ∈ views → v2 ∈ views →
        sameNodeSet v1.Nodes v2.Nodes = false →
        locateCommand h u false authoritative views args blob readErr =
          Except.error FatalError.clusterInconsistent) ∧
      (∀ a as msg, args = a :: as → a = "-".toList → u blob = Except.error msg →
        locateCommand h u false authoritative views args blob readErr =
          Except.error (FatalError.jsonUnmarshal msg)) ∧
      (∀ e : FatalError, fatalExitCode e ≠ 0 ∧ fatalDiagnostic e ≠ []) := by
  refine ⟨?_, ?_, ?_, ?_⟩
  · rintro rfl
    rfl
  · rintro a as v1 v2 rfl hne hv1 hv2 hbad
    have hsrc : locateSource (a :: as) = LocateSource.argv := by
      unfold locateSource
      simp only [List.headD_cons, List.length_cons]
      rw [if_neg (Nat.succ_ne_zero _), if_pos hne]
    unfold locateCommand
    rw [hsrc]
    show LocateSliceMetrics h views (a :: as) = _
    exact locateSlice_error_of_disagree h (a :: as) hv1 hv2 hbad
  · rintro a as msg rfl rfl herr
    have hsrc : locateSource ("-".toList :: as) = LocateSource.stdin := by
      unfold locateSource
      simp only [List.headD_cons, List.length_cons]
      rw [if_neg (Nat.succ_ne_zero _), if_neg (not_not_intro rfl)]
    unfold locateCommand
    rw [hsrc]
    unfold LocateJSONMetrics
    rw [herr]
  · intro e
    refine ⟨Nat.one_ne_zero, ?_⟩
    cases e with
    | noArguments => decide
    | clusterInconsistent => decide
    | emptyRingPanic => decide
    | jsonUnmarshal msg =>
      intro hcontr
      exact absurd (List.append_eq_nil.mp hcontr).1 (by decide)

/-- Witness for C5: the no-arguments invocation dies with the usage
diagnostic. -/
theorem claim_locate_fatal_preconditions_witness :
    locateCommand (fun s => s.length) (fun _ => Except.ok []) false
        ⟨"a".toList, ["a".toList]⟩ [] [] [] none =
      Except.error FatalError.noArguments :=
  (claim_locate_fatal_preconditions (fun s => s.length) (fun _ => Except.ok [])
      ⟨"a".toList, ["a".toList]⟩ [] [] [] none).1 rfl

/-- C6: each node-identifier string of the authoritative ring view is parsed
as `host[:instance]` - no colon yields that host with the default empty
instance, a `host:instance` form yields that host and that instance - and
one node is added to the ring per listed identifier. -/
theorem claim_ring_node_parsing (views : List JSONRingType) (s host inst : Str)
    (hmem : s ∈ (views.headD ⟨[], []⟩).Nodes) :
    (':' ∉ s → parseNode s = ⟨s, []⟩) ∧
      (':' ∉ host → ':' ∉ inst → parseNode (host ++ ':' :: inst) = ⟨host, inst⟩) ∧
      parseNode s ∈ (buildHashRing views).nodes ∧
      buildHashRing views =
        ((views.headD ⟨[], []⟩).Nodes).foldl
          (fun hr n => AddNode hr (parseNode n)) NewHashRing := by
  refine ⟨fun hc => parseNode_no_colon hc, fun h1 h2 => parseNode_colon h1 h2, ?_, rfl⟩
  exact (mem_buildHashRing views _).mpr ⟨s, hmem, rfl⟩

/-- Witness for C6 on the identifiers `"h1"` and `"h2:i"`. -/
theorem claim_ring_node_parsing_witness :
    parseNode "h1".toList = ⟨"h1".toList, []⟩ ∧
      parseNode ("h2".toList ++ ':' :: "i".toList) = ⟨"h2".toList, "i".toList⟩ ∧
      parseNode "h2:i".toList ∈
        (buildHashRing [⟨"a".toList, ["h1".toList, "h2:i".toList]⟩]).nodes :=
  ⟨(claim_ring_node_parsing [⟨"a".toList, ["h1".toList, "h2:i".toList]⟩]
      "h1".toList "h2".toList "i".toList (by decide)).1 (by decide),
   (claim_ring_node_parsing [⟨"a".toList, ["h1".toList, "h2:i".toList]⟩]
      "h1".toList "h2".toList "i".toList (by decide)).2.1 (by decide) (by decide),
   (claim_ring_node_parsing [⟨"a".toList, ["h1".toList, "h2:i".toList]⟩]
      "h2:i".toList "h2".toList "i".toList (by decide)).2.2.1⟩

/-- C8: on a batch with duplicate keys the returned mapping collapses them:
one entry per distinct key, whose value is determined by the key alone, so
resolving a duplicated key twice yields the same node both times. -/
theorem claim_duplicates_collapse (h : Str → Nat) (rings : List JSONRingType)
    (metrics : List Str) (hne : (buildHashRing rings).nodes ≠ [])
    (hok : IsHealthy rings = true) :
    ∃ m, LocateSliceMetrics h rings metrics = Except.ok m ∧
      (m.map Prod.fst).Nodup ∧
      (∀ k, k ∈ m.map Prod.fst ↔ k ∈ metrics) ∧
      (∀ k, k ∈ metrics →
        mapLookup m k = (GetNode h (buildHashRing rings) k).map Node.Server) := by
  obtain ⟨m, hm⟩ := locateLoop_ok_of_ne_nil h (buildHashRing rings) hne metrics []
  have hL : LocateSliceMetrics h rings metrics = Except.ok m := by
    unfold LocateSliceMetrics
    rw [if_pos hok]
    exact hm
  refine ⟨m, hL, ?_, ?_, ?_⟩
  · exact (locateLoop_keys h _ metrics [] m hm).1 (by simp)
  · intro k
    have := (locateLoop_keys h _ metrics [] m hm).2 k
    simpa using this
  · intro k hk
    rw [locateLoop_lookup h _ metrics [] m hm k, if_pos hk]

/-- Witness for C8: the duplicated key `"x"` collapses to a single entry. -/
theorem claim_duplicates_collapse_witness :
    ∃ m, LocateSliceMetrics (fun s => s.length)
          [⟨"a".toList, ["n1".toList, "n2".toList]⟩]
          ["x".toList, "x".toList] = Except.ok m ∧
        (m.map Prod.fst).Nodup ∧
        (∀ k, k ∈ m.map Prod.fst ↔ k ∈ ["x".toList, "x".toList]) ∧
        (∀ k, k ∈ ["x".toList, "x".toList] →
          mapLookup m k =
            (GetNode (fun s => s.length)
                (buildHashRing [⟨"a".toList, ["n1".toList, "n2".toList]⟩]) k).map
              Node.Server) :=
  claim_duplicates_collapse (fun s => s.length)
    [⟨"a".toList, ["n1".toList, "n2".toList]⟩] ["x".toList, "x".toList]
    (by decide) (by decide)

/-- C9: the mapping stores only the `Server` component of the resolved node,
discarding the instance, so two ring nodes differing only in instance are
indistinguishable in the output. -/
theorem claim_instance_discarded (h : Str → Nat) (rings : List JSONRingType)
    (metrics : List Str) (m : List (Str × Str))
    (hok : LocateSliceMetrics h rings metrics = Except.ok m) :
    (∀ k, k ∈ metrics →
      mapLookup m k = (GetNode h (buildHashRing rings) k).map Node.Server) ∧
      (∀ k1 k2 n1 n2, k1 ∈ metrics → k2 ∈ metrics →
        GetNode h (buildHashRing rings) k1 = some n1 →
        GetNode h (buildHashRing rings) k2 = some n2 →
        n1.Server = n2.Server → mapLookup m k1 = mapLookup m k2) := by
  have hloop := locateSlice_ok_elim hok
  constructor
  · intro k hk
    rw [locateLoop_lookup h _ metrics [] m hloop k, if_pos hk]
  · intro k1 k2 n1 n2 h1 h2 hg1 hg2 hs
    rw [locateLoop_lookup h _ metrics [] m hloop k1, if_pos h1, hg1,
      locateLoop_lookup h _ metrics [] m hloop k2, if_pos h2, hg2]
    simp [hs]

/-- Witness for C9: two instances on host `"h"` give both keys the bare host
as their mapped value. -/
theorem claim_instance_discarded_witness :
    mapLookup [("k1".toList, "h".toList), ("k2".toList, "h".toList)] "k1".toList =
      mapLookup [("k1".toList, "h".toList), ("k2".toList, "h".toList)] "k2".toList :=
  (claim_instance_discarded (fun s => s.length)
      [⟨"a".toList, ["h:a".toList, "h:b".toList]⟩] ["k1".toList, "k2".toList]
      [("k1".toList, "h".toList), ("k2".toList, "h".toList)] (by decide)).2
    "k1".toList "k2".toList ⟨"h".toList, "a".toList⟩ ⟨"h".toList, "a".toList⟩
    (by decide) (by decide) (by decide) (by decide) rfl

/-- C4: key resolution is a deterministic function of the node set and the
key alone: rings built from membership lists that are permutations of each
other resolve every key identically, so repeated runs with unchanged
membership produce identical key-to-node mappings. -/
theorem claim_getNode_deterministic (h : Str → Nat)
    (rings1 rings2 : List JSONRingType) (key : Str)
    (hperm : ((rings1.headD ⟨[], []⟩).Nodes).Perm ((rings2.headD ⟨[], []⟩).Nodes)) :
    GetNode h (buildHashRing rings1) key = GetNode h (buildHashRing rings2) key ∧
      (∀ metrics m1 m2, LocateSliceMetrics h rings1 metrics = Except.ok m1 →
        LocateSliceMetrics h rings2 metrics = Except.ok m2 →
        ∀ k, mapLookup m1 k = mapLookup m2 k) := by
  have hg : ∀ key', GetNode h (buildHashRing rings1) key' =
      GetNode h (buildHashRing rings2) key' :=
    fun key' => getNode_eq_of_perm h (buildHashRing_perm hperm) key'
  refine ⟨hg key, ?_⟩
  intro metrics m1 m2 h1 h2 k
  rw [locateLoop_lookup h _ metrics [] m1 (locateSlice_ok_elim h1) k,
    locateLoop_lookup h _ metrics [] m2 (locateSlice_ok_elim h2) k]
  by_cases hk : k ∈ metrics
  · rw [if_pos hk, if_pos hk, hg k]
  · rw [if_neg hk, if_neg hk]

/-- Witness for C4: the same membership listed in two different orders
resolves the key `"x"` to the same node. -/
theorem claim_getNode_deterministic_witness :
    GetNode (fun s => s.length)
        (buildHashRing [⟨"a".toList, ["n2".toList, "n1".toList]⟩]) "x".toList =
      GetNode (fun s => s.length)
        (buildHashRing [⟨"b".toList, ["n1".toList, "n2".toList]⟩]) "x".toList :=
  (claim_getNode_deterministic (fun s => s.length)
      [⟨"a".toList, ["n2".toList, "n1".toList]⟩]
      [⟨"b".toList, ["n1".toList, "n2".toList]⟩] "x".toList (by decide)).1

end Buckytools
